import Mathlib

/-!
# Verification of the glaze HTTP router core

A shallow embedding of the glaze routing library (tree.go, route.go,
glaze.go, and the Context dispatch code) together with proofs of the
spec's testable properties.

Modelling conventions:
* Go strings are modelled as `List Char`; a path is the list of its
  characters and a path segment is a `List Char` as well.
* Go maps (`map[string]*node`, `map[string]string`) are modelled as
  association lists with overwrite-on-insert semantics (`mins`/`mlook`);
  the Go code never iterates over these maps, so only lookup and insert
  behaviour matters.
* Go panics in `addRoute` are modelled by returning `Except.error`;
  a panic aborts the program, so the post-panic tree state is never
  observable and is not modelled.
* Go stdlib helpers used by the source (`strings.Split`, `strings.Trim`,
  `path.Join`, `path.Clean`) are re-implemented here following their
  documented semantics, since their sources are not part of this
  repository.
-/

namespace Glaze

/-! ## Association-list model of Go maps -/

/-- Lookup in an association list, the model of Go map indexing. -/
def mlook {α β : Type} [DecidableEq α] : List (α × β) → α → Option β
  | [], _ => none
  | (k, v) :: rest, k' => if k' = k then some v else mlook rest k'

/-- Insert (overwrite) in an association list, the model of Go map assignment. -/
def mins {α β : Type} [DecidableEq α] : List (α × β) → α → β → List (α × β)
  | [], k, v => [(k, v)]
  | (k0, v0) :: rest, k, v =>
      if k = k0 then (k0, v) :: rest else (k0, v0) :: mins rest k v

theorem mlook_mins_self {α β : Type} [DecidableEq α] (l : List (α × β)) (k : α) (v : β) :
    mlook (mins l k v) k = some v := by
  induction l with
  | nil => simp [mins, mlook]
  | cons hd tl ih =>
      obtain ⟨k0, v0⟩ := hd
      by_cases h : k = k0
      · simp [mins, h, mlook]
      · simp [mins, h, mlook, ih]

theorem mlook_mins_other {α β : Type} [DecidableEq α] (l : List (α × β)) (k k' : α) (v : β)
    (h : k' ≠ k) : mlook (mins l k v) k' = mlook l k' := by
  induction l with
  | nil => simp [mins, mlook, h]
  | cons hd tl ih =>
      obtain ⟨k0, v0⟩ := hd
      by_cases hk : k = k0
      · subst hk
        simp [mins, mlook, h, ih]
      · by_cases hk' : k' = k0 <;> simp [mins, mlook, hk, hk', ih]

/-! ## Path splitting (tree.go, `splitClean`)

`splitClean` first trims `/` from both ends (Go `strings.Trim(p, "/")`),
returns no segments for the empty result, and otherwise splits on `/`
(Go `strings.Split`) and drops empty segments. -/

/-- Model of Go `strings.Split(s, "/")` on character lists: split into the
(non-empty) list of groups between separators; `Split("", "/") = [""]`. -/
def splitGo : List Char → List (List Char)
  | [] => [[]]
  | c :: cs =>
      if c = '/' then [] :: splitGo cs
      else
        match splitGo cs with
        | [] => [[c]]
        | g :: gs => (c :: g) :: gs

/-- Model of Go `strings.Trim(p, "/")`: drop leading and trailing `/`. -/
def trimSlash (p : List Char) : List Char :=
  ((p.dropWhile fun c => c = '/').reverse.dropWhile fun c => c = '/').reverse

/-- `splitClean` from tree.go: trim slashes, then split on `/` keeping only
non-empty segments (an empty trimmed path yields no segments). -/
def splitClean (p : List Char) : List (List Char) :=
  let t := trimSlash p
  if t = [] then []
  else (splitGo t).filter fun s => s ≠ []

theorem splitGo_ne_nil (cs : List Char) : splitGo cs ≠ [] := by
  cases cs with
  | nil => simp [splitGo]
  | cons c cs =>
      by_cases h : c = '/'
      · simp [splitGo, h]
      · simp only [splitGo, h, if_false]
        rcases hs : splitGo cs with _ | ⟨g, gs⟩ <;> simp

/-- Splitting distributes over a separator: the groups of `xs ++ '/' :: ys`
are the groups of `xs` followed by the groups of `ys`. -/
theorem splitGo_append (xs ys : List Char) :
    splitGo (xs ++ '/' :: ys) = splitGo xs ++ splitGo ys := by
  induction xs with
  | nil => simp [splitGo]
  | cons c cs ih =>
      by_cases h : c = '/'
      · simp [splitGo, h, ih]
      · rcases hs : splitGo cs with _ | ⟨g, gs⟩
        · exact absurd hs (splitGo_ne_nil cs)
        · simp [splitGo, h, ih, hs]

/-- Dropping leading slashes does not change the non-empty groups. -/
theorem filter_splitGo_dropWhile (p : List Char) :
    (splitGo (p.dropWhile fun c => c = '/')).filter (fun s => s ≠ []) =
      (splitGo p).filter (fun s => s ≠ []) := by
  induction p with
  | nil => simp
  | cons c cs ih =>
      by_cases h : c = '/'
      · simpa [List.dropWhile, h, splitGo] using ih
      · simp [List.dropWhile, h]

/-- Appending a trailing slash does not change the non-empty groups. -/
theorem filter_splitGo_append_slash (p : List Char) :
    (splitGo (p ++ ['/'])).filter (fun s => s ≠ []) =
      (splitGo p).filter (fun s => s ≠ []) := by
  have h : p ++ ['/'] = p ++ '/' :: [] := rfl
  rw [h, splitGo_append]
  simp [splitGo]

/-- Dropping trailing slashes does not change the non-empty groups. -/
theorem filter_splitGo_trimRight (r : List Char) :
    (splitGo (r.dropWhile fun c => c = '/').reverse).filter (fun s => s ≠ []) =
      (splitGo r.reverse).filter (fun s => s ≠ []) := by
  induction r with
  | nil => simp
  | cons c cs ih =>
      by_cases h : c = '/'
      · have h2 : (c :: cs).reverse = cs.reverse ++ ['/'] := by simp [h]
        rw [List.dropWhile_cons, if_pos (by simp [h]), h2, filter_splitGo_append_slash, ih]
      · rw [List.dropWhile_cons, if_neg (by simp [h])]

/-- `splitClean` computed without the trimming: just the non-empty groups. -/
theorem splitClean_eq_filter (p : List Char) :
    splitClean p = (splitGo p).filter (fun s => s ≠ []) := by
  have key : (splitGo (trimSlash p)).filter (fun s => s ≠ []) =
      (splitGo p).filter (fun s => s ≠ []) := by
    unfold trimSlash
    rw [filter_splitGo_trimRight, List.reverse_reverse, filter_splitGo_dropWhile]
  unfold splitClean
  by_cases h : trimSlash p = []
  · simp only [h, if_pos rfl]
    rw [← key, h]
    simp [splitGo]
  · simp only [h, if_neg h]
    exact key

/-- A leading slash is ignored by `splitClean`. -/
theorem splitClean_cons_slash (p : List Char) : splitClean ('/' :: p) = splitClean p := by
  rw [splitClean_eq_filter, splitClean_eq_filter]
  simp [splitGo]

/-- A trailing slash is ignored by `splitClean`. -/
theorem splitClean_append_slash (p : List Char) : splitClean (p ++ ['/']) = splitClean p := by
  rw [splitClean_eq_filter, splitClean_eq_filter, filter_splitGo_append_slash]

/-- Consecutive slashes collapse: a doubled separator splits like a single one. -/
theorem splitClean_double_slash (a b : List Char) :
    splitClean (a ++ '/' :: '/' :: b) = splitClean (a ++ '/' :: b) := by
  rw [splitClean_eq_filter, splitClean_eq_filter, splitGo_append, splitGo_append]
  have h : ('/' :: b : List Char) = [] ++ '/' :: b := rfl
  rw [h, splitGo_append]
  simp [splitGo]

/-- An all-slash path yields no segments. -/
theorem splitClean_replicate_slash (n : Nat) : splitClean (List.replicate n '/') = [] := by
  induction n with
  | zero => rfl
  | succ k ih => rw [List.replicate_succ, splitClean_cons_slash, ih]

/-- `splitClean` concatenates across a separator. -/
theorem splitClean_append (a b : List Char) :
    splitClean (a ++ '/' :: b) = splitClean a ++ splitClean b := by
  rw [splitClean_eq_filter, splitClean_eq_filter, splitClean_eq_filter, splitGo_append,
    List.filter_append]

theorem splitGo_no_slash (p : List Char) : ∀ g ∈ splitGo p, '/' ∉ g := by
  induction p with
  | nil =>
      intro g hg
      simp [splitGo] at hg
      simp [hg]
  | cons c cs ih =>
      intro g hg
      by_cases h : c = '/'
      · simp only [splitGo, h, if_true, List.mem_cons] at hg
        rcases hg with hg | hg
        · simp [hg]
        · exact ih g hg
      · rcases hs : splitGo cs with _ | ⟨g0, gs⟩
        · exact absurd hs (splitGo_ne_nil cs)
        · simp only [splitGo, h, if_false, hs, List.mem_cons] at hg
          rcases hg with hg | hg
          · subst hg
            intro hc
            rcases List.mem_cons.mp hc with hc | hc
            · exact h hc.symm
            · exact ih g0 (by rw [hs]; exact List.mem_cons_self g0 gs) hc
          · exact ih g (by rw [hs]; exact List.mem_cons_of_mem g0 hg)

/-- Every segment produced by `splitClean` is non-empty and slash-free. -/
theorem splitClean_seg_ok (p : List Char) (s : List Char) (hs : s ∈ splitClean p) :
    s ≠ [] ∧ '/' ∉ s := by
  rw [splitClean_eq_filter] at hs
  have h1 := List.of_mem_filter hs
  have h2 := List.mem_of_mem_filter hs
  refine ⟨by simpa using h1, splitGo_no_slash p s h2⟩


/-! ## The routing tree (tree.go)

`node` from tree.go: a path segment with static children (a Go map) and
at most one parameter child. Handlers are abstract: the tree is generic
over the handler type `H` (`[]HandlerFunc` becomes `List H`), and a Go
nil handler slice is `none`. -/

/-- `node` from tree.go. `segment` is the segment name (for a parameter
node, the name without the leading `:`), `param` marks a parameter node,
`handlers` is the chain stored when a route terminates here, `children`
maps literal segment strings to child nodes, `paramNode` is the single
parameter child. -/
inductive Node (H : Type) : Type where
  | mk (segment : List Char) (param : Bool) (handlers : Option (List H))
      (children : List (List Char × Node H)) (paramNode : Option (Node H)) : Node H

def Node.segment {H : Type} : Node H → List Char
  | .mk s _ _ _ _ => s

def Node.param {H : Type} : Node H → Bool
  | .mk _ b _ _ _ => b

def Node.handlers {H : Type} : Node H → Option (List H)
  | .mk _ _ h _ _ => h

def Node.children {H : Type} : Node H → List (List Char × Node H)
  | .mk _ _ _ c _ => c

def Node.paramNode {H : Type} : Node H → Option (Node H)
  | .mk _ _ _ _ p => p

/-- A fresh node as created by `addRoute` (`&node{children: make(...)}`,
optionally with a segment and the param flag). -/
def Node.fresh {H : Type} (seg : List Char) (isParam : Bool) : Node H :=
  .mk seg isParam none [] none

/-- The registration-time failures of `addRoute` (raised as panics in Go):
a parameter segment colliding with a static child of the same literal
token, a static segment colliding with an existing parameter child, and a
duplicate route. -/
inductive RouteError : Type where
  | paramConflict (part : List Char)
  | staticConflict (part : List Char)
  | duplicateRoute
  deriving DecidableEq, Repr

/-- The segment-walking loop of `addRoute` (tree.go lines 29-73): walk or
create one node per segment, checking conflicts, and finally store the
handler chain unless the final node already carries one. -/
def insertRoute {H : Type} (chain : List H) : List (List Char) → Node H →
    Except RouteError (Node H)
  | [], .mk seg pb hs ch pn =>
      if hs.isSome then .error .duplicateRoute
      else .ok (.mk seg pb (some chain) ch pn)
  | part :: rest, .mk seg pb hs ch pn =>
      if part.head? = some ':' then
        if (mlook ch part).isSome then
          .error (.paramConflict part)
        else
          match insertRoute chain rest (pn.getD (Node.fresh part.tail true)) with
          | .error e => .error e
          | .ok p1 => .ok (.mk seg pb hs ch (some p1))
      else
        if pn.isSome then
          .error (.staticConflict part)
        else
          match insertRoute chain rest ((mlook ch part).getD (Node.fresh part false)) with
          | .error e => .error e
          | .ok c1 => .ok (.mk seg pb hs (mins ch part c1) pn)

/-- The matching loop of `findRoute` (tree.go lines 94-120): per segment,
prefer an exact static child, else fall back to the parameter child
(binding its name to the segment text in the lazily allocated parameter
map), else report not-found as `(none, none)`. -/
def findNode {H : Type} : List (List Char) → Node H →
    Option (List (List Char × List Char)) →
    Option (List H) × Option (List (List Char × List Char))
  | [], n, params => (n.handlers, params)
  | part :: rest, n, params =>
      match mlook n.children part with
      | some next => findNode rest next params
      | none =>
          match n.paramNode with
          | some p =>
              let ps := match params with
                | none => []
                | some m => m
              findNode rest p (some (mins ps p.segment part))
          | none => (none, none)

/-- The `Engine` fields relevant to routing (glaze.go): the per-method
tree map and the route registry. -/
structure Engine (H : Type) : Type where
  trees : List (String × Node H)
  routeList : List (String × List Char)

/-- A fresh engine (`glaze.New`): no trees, no routes. -/
def emptyEngine (H : Type) : Engine H := ⟨[], []⟩

/-- `Engine.addRoute` from tree.go: lazily create the per-method root,
insert the route, record it in the route registry. A conflict or
duplicate panic is modelled as an error result. -/
def Engine.addRoute {H : Type} (e : Engine H) (method : String) (path : List Char)
    (chain : List H) : Except RouteError (Engine H) :=
  match insertRoute chain (splitClean path)
      ((mlook e.trees method).getD (Node.fresh [] false)) with
  | .error err => .error err
  | .ok root1 =>
      .ok ⟨mins e.trees method root1, e.routeList ++ [(method, path)]⟩

/-- `Engine.findRoute` from tree.go: a method with no tree is not-found
(`(none, none)`); otherwise walk the tree over the cleaned segments. -/
def Engine.findRoute {H : Type} (e : Engine H) (method : String) (path : List Char) :
    Option (List H) × Option (List (List Char × List Char)) :=
  match mlook e.trees method with
  | none => (none, none)
  | some root => findNode (splitClean path) root none

/-- Registering a list of routes in order, stopping at the first failure
(in Go the first panic aborts the program). -/
def regAll {H : Type} (e : Engine H) : List (String × List Char × List H) →
    Except RouteError (Engine H)
  | [] => .ok e
  | (m, p, ch) :: rest =>
      match e.addRoute m p ch with
      | .error err => .error err
      | .ok e1 => regAll e1 rest

/-- A path has a parameter segment iff some cleaned segment starts with `:`. -/
def hasParamSeg (p : List Char) : Bool :=
  (splitClean p).any fun s => s.head? = some ':'

/-! ## Structural lemmas about `insertRoute` -/

/-- A successful insertion never changes the segment name or param flag of
the node it starts at (in particular a parameter node keeps its name). -/
theorem insertRoute_meta {H : Type} (chain : List H) (parts : List (List Char))
    (nd nd' : Node H) (h : insertRoute chain parts nd = .ok nd') :
    nd'.segment = nd.segment ∧ nd'.param = nd.param := by
  cases nd with
  | mk seg pb hs ch pn =>
      cases parts with
      | nil =>
          by_cases hh : hs.isSome
          · simp [insertRoute, hh] at h
          · simp [insertRoute, hh] at h
            rw [← h]
            exact ⟨rfl, rfl⟩
      | cons part rest =>
          by_cases hpar : part.head? = some ':'
          · by_cases hcl : (mlook ch part).isSome
            · simp [insertRoute, hpar, hcl] at h
            · rcases hr : insertRoute chain rest (pn.getD (Node.fresh part.tail true))
                with e | p1
              · simp [insertRoute, hpar, hcl, hr] at h
              · simp [insertRoute, hpar, hcl, hr] at h
                rw [← h]
                exact ⟨rfl, rfl⟩
          · by_cases hpn : pn.isSome
            · simp [insertRoute, hpar, hpn] at h
            · rcases hr : insertRoute chain rest ((mlook ch part).getD (Node.fresh part false))
                with e | c1
              · simp [insertRoute, hpar, hpn, hr] at h
              · simp [insertRoute, hpar, hpn, hr] at h
                rw [← h]
                exact ⟨rfl, rfl⟩

/-- A successful insertion of a non-empty segment list leaves the handlers
of the starting node untouched. -/
theorem insertRoute_handlers_cons {H : Type} (chain : List H) (part : List Char)
    (rest : List (List Char)) (nd nd' : Node H)
    (h : insertRoute chain (part :: rest) nd = .ok nd') :
    nd'.handlers = nd.handlers := by
  cases nd with
  | mk seg pb hs ch pn =>
      by_cases hpar : part.head? = some ':'
      · by_cases hcl : (mlook ch part).isSome
        · simp [insertRoute, hpar, hcl] at h
        · rcases hr : insertRoute chain rest (pn.getD (Node.fresh part.tail true))
            with e | p1
          · simp [insertRoute, hpar, hcl, hr] at h
          · simp [insertRoute, hpar, hcl, hr] at h
            rw [← h]
            rfl
      · by_cases hpn : pn.isSome
        · simp [insertRoute, hpar, hpn] at h
        · rcases hr : insertRoute chain rest ((mlook ch part).getD (Node.fresh part false))
            with e | c1
          · simp [insertRoute, hpar, hpn, hr] at h
          · simp [insertRoute, hpar, hpn, hr] at h
            rw [← h]
            rfl

/-- Inserting an empty segment list stores the chain (and requires that no
chain was present). -/
theorem insertRoute_handlers_nil {H : Type} (chain : List H) (nd nd' : Node H)
    (h : insertRoute chain [] nd = .ok nd') :
    nd'.handlers = some chain ∧ nd.handlers = none := by
  cases nd with
  | mk seg pb hs ch pn =>
      by_cases hh : hs.isSome
      · simp [insertRoute, hh] at h
      · simp [insertRoute, hh] at h
        rw [← h]
        refine ⟨rfl, ?_⟩
        show hs = none
        cases hs with
        | none => rfl
        | some v => simp at hh

/-- Re-inserting the same segment sequence right after a successful
insertion always fails with the duplicate-route error. -/
theorem insertRoute_twice {H : Type} (chain chain' : List H) :
    ∀ (parts : List (List Char)) (nd nd' : Node H),
      insertRoute chain parts nd = .ok nd' →
      insertRoute chain' parts nd' = .error .duplicateRoute := by
  intro parts
  induction parts with
  | nil =>
      intro nd nd' h
      rcases insertRoute_handlers_nil chain nd nd' h with ⟨h1, _⟩
      cases nd' with
      | mk seg pb hs ch pn =>
          have : hs = some chain := h1
          simp [insertRoute, this]
  | cons part rest ih =>
      intro nd nd' h
      cases nd with
      | mk seg pb hs ch pn =>
          by_cases hpar : part.head? = some ':'
          · by_cases hcl : (mlook ch part).isSome
            · simp [insertRoute, hpar, hcl] at h
            · rcases hr : insertRoute chain rest (pn.getD (Node.fresh part.tail true))
                with e | p1
              · simp [insertRoute, hpar, hcl, hr] at h
              · simp [insertRoute, hpar, hcl, hr] at h
                rw [← h]
                simp [insertRoute, hpar, hcl, ih _ _ hr]
          · by_cases hpn : pn.isSome
            · simp [insertRoute, hpar, hpn] at h
            · rcases hr : insertRoute chain rest ((mlook ch part).getD (Node.fresh part false))
                with e | c1
              · simp [insertRoute, hpar, hpn, hr] at h
              · simp [insertRoute, hpar, hpn, hr] at h
                rw [← h]
                simp [insertRoute, hpar, hpn, mlook_mins_self, ih _ _ hr]

/-- A successful insertion never replaces an existing parameter child: the
parameter child survives with its stored name unchanged. -/
theorem insertRoute_paramNode_name {H : Type} (chain : List H) (parts : List (List Char))
    (nd nd' : Node H) (pn : Node H) (h : insertRoute chain parts nd = .ok nd')
    (hpn : nd.paramNode = some pn) :
    ∃ pn', nd'.paramNode = some pn' ∧ pn'.segment = pn.segment := by
  cases nd with
  | mk seg pb hs ch pn0 =>
      have hpn0 : pn0 = some pn := hpn
      subst hpn0
      cases parts with
      | nil =>
          by_cases hh : hs.isSome
          · simp [insertRoute, hh] at h
          · simp [insertRoute, hh] at h
            rw [← h]
            exact ⟨pn, rfl, rfl⟩
      | cons part rest =>
          by_cases hpar : part.head? = some ':'
          · by_cases hcl : (mlook ch part).isSome
            · simp [insertRoute, hpar, hcl] at h
            · rcases hr : insertRoute chain rest pn with e | p1
              · simp [insertRoute, hpar, hcl, hr] at h
              · simp [insertRoute, hpar, hcl, hr] at h
                rw [← h]
                refine ⟨p1, rfl, ?_⟩
                exact (insertRoute_meta chain rest pn p1 hr).1
          · simp [insertRoute, hpar] at h

/-! ## Resolution of a freshly inserted route -/

/-- After a successful insertion of `parts`, resolving exactly `parts` from
the updated node finds the inserted chain; moreover, when no segment is a
parameter segment the parameter map is passed through untouched. -/
theorem findNode_insertRoute {H : Type} (chain : List H) :
    ∀ (parts : List (List Char)) (nd nd' : Node H)
      (h : insertRoute chain parts nd = .ok nd')
      (ps : Option (List (List Char × List Char))),
      (findNode parts nd' ps).1 = some chain ∧
        ((∀ s ∈ parts, s.head? ≠ some ':') → (findNode parts nd' ps).2 = ps) := by
  intro parts
  induction parts with
  | nil =>
      intro nd nd' h ps
      rcases insertRoute_handlers_nil chain nd nd' h with ⟨h1, _⟩
      exact ⟨by simp [findNode, h1], fun _ => by simp [findNode]⟩
  | cons part rest ih =>
      intro nd nd' h ps
      cases nd with
      | mk seg pb hs ch pn =>
          by_cases hpar : part.head? = some ':'
          · by_cases hcl : (mlook ch part).isSome
            · simp [insertRoute, hpar, hcl] at h
            · rcases hr : insertRoute chain rest (pn.getD (Node.fresh part.tail true))
                with e | p1
              · simp [insertRoute, hpar, hcl, hr] at h
              · simp [insertRoute, hpar, hcl, hr] at h
                rw [← h]
                have hnone : mlook ch part = none := by
                  cases hc : mlook ch part with
                  | none => rfl
                  | some v => rw [hc] at hcl; simp at hcl
                constructor
                · simp only [findNode, Node.children, Node.paramNode, hnone]
                  exact (ih _ p1 hr _).1
                · intro hall
                  exact absurd hpar (hall part (List.mem_cons_self part rest))
          · by_cases hpn : pn.isSome
            · simp [insertRoute, hpar, hpn] at h
            · rcases hr : insertRoute chain rest ((mlook ch part).getD (Node.fresh part false))
                with e | c1
              · simp [insertRoute, hpar, hpn, hr] at h
              · simp [insertRoute, hpar, hpn, hr] at h
                rw [← h]
                have hlook : mlook (mins ch part c1) part = some c1 := mlook_mins_self ch part c1
                constructor
                · have := (ih _ c1 hr ps).1
                  simpa [findNode, Node.children, hlook] using this
                · intro hall
                  have := (ih _ c1 hr ps).2 fun s hsm => hall s (List.mem_cons_of_mem part hsm)
                  simpa [findNode, Node.children, hlook] using this

/-! ## Resolution is stable under later successful registrations -/

/-- Any successful resolution is preserved by a later successful
insertion: `addRoute` never moves, removes or overwrites a route that is
already resolvable. -/
theorem findNode_preserve {H : Type} (chain' : List H) :
    ∀ (parts qarts : List (List Char)) (nd nd' : Node H)
      (ps rps : Option (List (List Char × List Char))) (ch : List H),
      insertRoute chain' qarts nd = .ok nd' →
      findNode parts nd ps = (some ch, rps) →
      findNode parts nd' ps = (some ch, rps) := by
  intro parts
  induction parts with
  | nil =>
      intro qarts nd nd' ps rps ch hq hf
      have h1 : nd.handlers = some ch ∧ ps = rps := by
        simpa [findNode, Prod.ext_iff] using hf
      cases qarts with
      | nil =>
          rcases insertRoute_handlers_nil chain' nd nd' hq with ⟨_, hnone⟩
          rw [hnone] at h1
          exact absurd h1.1 (by simp)
      | cons q qrest =>
          have hpres := insertRoute_handlers_cons chain' q qrest nd nd' hq
          simp [findNode, hpres, h1.1, h1.2]
  | cons part rest ih =>
      intro qarts nd nd' ps rps ch hq hf
      cases nd with
      | mk seg pb hs ch0 pn =>
      cases hcL : mlook ch0 part with
      | some cnode =>
          have hf1 : findNode rest cnode ps = (some ch, rps) := by
            simpa [findNode, Node.children, hcL] using hf
          cases qarts with
          | nil =>
              by_cases hhs : hs.isSome
              · simp [insertRoute, hhs] at hq
              · simp [insertRoute, hhs] at hq
                rw [← hq]
                simpa [findNode, Node.children, hcL] using hf1
          | cons q qrest =>
              by_cases hqpar : q.head? = some ':'
              · by_cases hqcl : (mlook ch0 q).isSome
                · simp [insertRoute, hqpar, hqcl] at hq
                · rcases hr : insertRoute chain' qrest (pn.getD (Node.fresh q.tail true))
                    with e | p1
                  · simp [insertRoute, hqpar, hqcl, hr] at hq
                  · simp [insertRoute, hqpar, hqcl, hr] at hq
                    rw [← hq]
                    simpa [findNode, Node.children, hcL] using hf1
              · by_cases hqpn : pn.isSome
                · simp [insertRoute, hqpar, hqpn] at hq
                · rcases hr : insertRoute chain' qrest ((mlook ch0 q).getD (Node.fresh q false))
                    with e | c1
                  · simp [insertRoute, hqpar, hqpn, hr] at hq
                  · simp [insertRoute, hqpar, hqpn, hr] at hq
                    rw [← hq]
                    by_cases hqp : q = part
                    · subst hqp
                      rw [hcL] at hr
                      simp only [Option.getD_some] at hr
                      have hlook : mlook (mins ch0 q c1) q = some c1 :=
                        mlook_mins_self ch0 q c1
                      simp only [findNode, Node.children, hlook]
                      exact ih qrest cnode c1 ps rps ch hr hf1
                    · have hlook : mlook (mins ch0 q c1) part = mlook ch0 part :=
                        mlook_mins_other ch0 q part c1 fun he => hqp he.symm
                      simp only [findNode, Node.children, hlook, hcL]
                      exact hf1
      | none =>
          cases pn with
          | none =>
              simp [findNode, Node.children, Node.paramNode, hcL, Prod.ext_iff] at hf
          | some pnN =>
              simp only [findNode, Node.children, Node.paramNode, hcL] at hf
              cases qarts with
              | nil =>
                  by_cases hhs : hs.isSome
                  · simp [insertRoute, hhs] at hq
                  · simp [insertRoute, hhs] at hq
                    rw [← hq]
                    simp only [findNode, Node.children, Node.paramNode, hcL]
                    exact hf
              | cons q qrest =>
                  by_cases hqpar : q.head? = some ':'
                  · by_cases hqcl : (mlook ch0 q).isSome
                    · simp [insertRoute, hqpar, hqcl] at hq
                    · rcases hr : insertRoute chain' qrest pnN with e | p1
                      · simp [insertRoute, hqpar, hqcl, hr] at hq
                      · simp [insertRoute, hqpar, hqcl, hr] at hq
                        rw [← hq]
                        have hseg : p1.segment = pnN.segment :=
                          (insertRoute_meta chain' qrest pnN p1 hr).1
                        simp only [findNode, Node.children, Node.paramNode, hcL, hseg]
                        exact ih qrest pnN p1 _ rps ch hr hf
                  · simp [insertRoute, hqpar] at hq

/-! ## Engine-level correctness -/

/-- Right after a successful `addRoute`, resolving the very path that was
registered yields exactly the registered chain, and parameter bindings are
`none` for a path without parameter segments. -/
theorem addRoute_findRoute {H : Type} (e e' : Engine H) (m : String) (p : List Char)
    (chain : List H) (h : e.addRoute m p chain = .ok e') :
    (e'.findRoute m p).1 = some chain ∧
      (hasParamSeg p = false → (e'.findRoute m p).2 = none) := by
  unfold Engine.addRoute at h
  rcases hr : insertRoute chain (splitClean p)
      ((mlook e.trees m).getD (Node.fresh [] false)) with err | root1
  · rw [hr] at h
    simp at h
  · rw [hr] at h
    simp only [Except.ok.injEq] at h
    have htrees : e'.trees = mins e.trees m root1 := by rw [← h]
    have hfr : e'.findRoute m p = findNode (splitClean p) root1 none := by
      unfold Engine.findRoute
      rw [htrees, mlook_mins_self]
    rcases findNode_insertRoute chain (splitClean p) _ root1 hr none with ⟨h1, h2⟩
    refine ⟨by rw [hfr]; exact h1, fun hnp => ?_⟩
    rw [hfr]
    apply h2
    intro s hsm
    have h3 : ∀ x ∈ splitClean p, ¬x.head? = some ':' := by
      simpa [hasParamSeg] using hnp
    exact h3 s hsm

/-- A successful resolution survives any later successful `addRoute`. -/
theorem addRoute_preserve {H : Type} (e e' : Engine H) (m' : String) (p' : List Char)
    (chain' : List H) (m : String) (p : List Char) (ch : List H)
    (rps : Option (List (List Char × List Char)))
    (h : e.addRoute m' p' chain' = .ok e')
    (hf : e.findRoute m p = (some ch, rps)) :
    e'.findRoute m p = (some ch, rps) := by
  unfold Engine.addRoute at h
  rcases hr : insertRoute chain' (splitClean p')
      ((mlook e.trees m').getD (Node.fresh [] false)) with err | root1
  · rw [hr] at h
    simp at h
  · rw [hr] at h
    simp only [Except.ok.injEq] at h
    have htrees : e'.trees = mins e.trees m' root1 := by rw [← h]
    by_cases hm : m = m'
    · subst hm
      rcases hroot : mlook e.trees m with _ | root
      · unfold Engine.findRoute at hf
        rw [hroot] at hf
        simp [Prod.ext_iff] at hf
      · have hf0 : findNode (splitClean p) root none = (some ch, rps) := by
          unfold Engine.findRoute at hf
          rwa [hroot] at hf
        rw [hroot] at hr
        simp only [Option.getD_some] at hr
        unfold Engine.findRoute
        rw [htrees, mlook_mins_self]
        exact findNode_preserve chain' (splitClean p) (splitClean p') root root1
          none rps ch hr hf0
    · unfold Engine.findRoute at hf ⊢
      rw [htrees, mlook_mins_other e.trees m' m root1 hm]
      exact hf

/-- A successful resolution survives a whole later registration sequence. -/
theorem regAll_preserve {H : Type} :
    ∀ (rs : List (String × List Char × List H)) (e e' : Engine H)
      (m : String) (p : List Char) (ch : List H)
      (rps : Option (List (List Char × List Char))),
      regAll e rs = .ok e' →
      e.findRoute m p = (some ch, rps) →
      e'.findRoute m p = (some ch, rps) := by
  intro rs
  induction rs with
  | nil =>
      intro e e' m p ch rps h hf
      simp only [regAll, Except.ok.injEq] at h
      rw [← h]
      exact hf
  | cons r rest ih =>
      intro e e' m p ch rps h hf
      obtain ⟨m0, p0, ch0⟩ := r
      rcases ha : e.addRoute m0 p0 ch0 with err | e1
      · rw [regAll, ha] at h
        simp at h
      · rw [regAll, ha] at h
        exact ih e1 e' m p ch rps h
          (addRoute_preserve e e1 m0 p0 ch0 m p ch rps ha hf)

/-- Core of claim C1: if a whole registration sequence succeeds, every
registered `(method, path, chain)` triple resolves to exactly its chain,
with `none` parameter bindings when the path has no parameter segments. -/
theorem regAll_findRoute {H : Type} :
    ∀ (rs : List (String × List Char × List H)) (e0 e : Engine H)
      (m : String) (p : List Char) (ch : List H),
      regAll e0 rs = .ok e →
      (m, p, ch) ∈ rs →
      (e.findRoute m p).1 = some ch ∧
        (hasParamSeg p = false → (e.findRoute m p).2 = none) := by
  intro rs
  induction rs with
  | nil =>
      intro e0 e m p ch h hmem
      simp at hmem
  | cons r rest ih =>
      intro e0 e m p ch h hmem
      obtain ⟨m0, p0, ch0⟩ := r
      rcases ha : e0.addRoute m0 p0 ch0 with err | e1
      · rw [regAll, ha] at h
        simp at h
      · rw [regAll, ha] at h
        rcases List.mem_cons.mp hmem with heq | htail
        · simp only [Prod.mk.injEq] at heq
          obtain ⟨rfl, rfl, rfl⟩ := heq
          rcases addRoute_findRoute e0 e1 m p ch ha with ⟨h1, h2⟩
          have hpair : e1.findRoute m p = (some ch, (e1.findRoute m p).2) := by
            rw [← h1]
          have hfinal := regAll_preserve rest e1 e m p ch
            ((e1.findRoute m p).2) h hpair
          constructor
          · rw [hfinal]
          · intro hnp
            rw [hfinal]
            exact h2 hnp
        · exact ih e1 e m p ch h htail

/-! ## The dispatch pipeline (Context.Next / Context.Abort)

`Context.Next` (part_001 lines 38-52) is self-driving: unless the
`stopped` flag is set it advances the cursor, invokes the handler at the
cursor, and recurses. A handler body is modelled by the dispatch-relevant
statements it may execute: calling `c.Abort()`, calling `c.Next()`, or a
tagged piece of its own work (so that execution of a body, e.g. a write
to the response, is observable in the model). `Next` takes a fuel
argument to express the Go recursion in Lean; `nextFuel` below always
suffices. -/

/-- One dispatch-relevant statement of a handler body. -/
inductive Act : Type where
  | callAbort : Act
  | callNext : Act
  | work (tag : Nat) : Act
  deriving DecidableEq, Repr

/-- The dispatch state of `Context` (part_001 lines 20-34): the handler
chain, the cursor `index` (a Go `int`, starting at `-1`), the `stopped`
flag — plus two ghost logs for the proofs: the handler indices entered
(in order) and the work tags executed (in order). -/
structure Context : Type where
  handlers : List (List Act)
  index : Int
  stopped : Bool
  entered : List Nat
  wrote : List Nat
  deriving DecidableEq, Repr

/-- `Context.Abort` (part_001 lines 56-59): just set the stop flag. -/
def Context.Abort (c : Context) : Context := { c with stopped := true }

mutual

/-- `Context.Next` (part_001 lines 38-52): if stopped, return; else
increment the cursor; if still inside the handler list, run that handler
body and then recurse. -/
def Context.Next : Nat → Context → Context
  | 0, c => c
  | fuel + 1, c =>
      if c.stopped then c
      else
        let c1 : Context := { c with index := c.index + 1 }
        if c1.index < (c1.handlers.length : Int) then
          let i := c1.index.toNat
          let body := c1.handlers.getD i []
          let c2 : Context := { c1 with entered := c1.entered ++ [i] }
          Context.Next fuel (runBody fuel body c2)
        else c1
termination_by fuel c => (fuel, 0)

/-- Run the statements of one handler body in order; `callAbort` is
`Context.Abort`, `callNext` re-enters `Context.Next`. -/
def runBody : Nat → List Act → Context → Context
  | _, [], c => c
  | fuel, .callAbort :: rest, c => runBody fuel rest { c with stopped := true }
  | fuel, .callNext :: rest, c => runBody fuel rest (Context.Next fuel c)
  | fuel, .work t :: rest, c => runBody fuel rest { c with wrote := c.wrote ++ [t] }
termination_by fuel acts c => (fuel, acts.length + 1)

end

/-- The context built by `ServeHTTP` (glaze.go lines 87-97): cursor at
`-1`, not stopped, nothing executed yet. -/
def mkContext (hs : List (List Act)) : Context :=
  ⟨hs, -1, false, [], []⟩

/-- `joinHandler` from route.go: the group chain followed by the new
handlers, copied into one list (inherited middleware first). -/
def joinHandler {H : Type} (groupChain handlers : List H) : List H :=
  groupChain ++ handlers

/-- Fuel that always suffices for a full dispatch of `n` handlers. -/
def nextFuel (hs : List (List Act)) : Nat := hs.length + 1

/-- The work tags a body executes. -/
def workTags (as : List Act) : List Nat :=
  as.filterMap fun a =>
    match a with
    | .work t => some t
    | _ => none

/-- A stopped context is inert under `Next`, whatever the fuel. -/
theorem Next_stopped (f : Nat) (c : Context) (hstop : c.stopped = true) :
    Context.Next f c = c := by
  cases f with
  | zero => simp [Context.Next]
  | succ f0 => simp [Context.Next, hstop]

/-- `Next` on an un-stopped context whose cursor has reached the end:
just the final cursor increment. -/
theorem Next_succ_over (f0 : Nat) (c : Context) (hstop : c.stopped = false)
    (hge : ¬c.index + 1 < (c.handlers.length : Int)) :
    Context.Next (f0 + 1) c = { c with index := c.index + 1 } := by
  simp [Context.Next, hstop, hge]

/-- `Next` on an un-stopped context with the cursor still in range: enter
the next handler, run its body, recurse. -/
theorem Next_succ_run (f0 : Nat) (c : Context) (hstop : c.stopped = false)
    (hlt : c.index + 1 < (c.handlers.length : Int)) :
    Context.Next (f0 + 1) c =
      Context.Next f0 (runBody f0 (c.handlers.getD (c.index + 1).toNat [])
        { c with index := c.index + 1,
                 entered := c.entered ++ [(c.index + 1).toNat] }) := by
  simp [Context.Next, hstop, hlt]

/-- A stopped context stays stopped through a body: only `work` runs
(the handler finishes its own statements, nothing re-enters `Next`). -/
theorem runBody_stopped (f : Nat) :
    ∀ (as : List Act) (c : Context), c.stopped = true →
      runBody f as c = { c with wrote := c.wrote ++ workTags as } := by
  intro as
  induction as with
  | nil =>
      intro c hstop
      cases c
      simp_all [runBody, workTags]
  | cons a rest ih =>
      intro c hstop
      cases a with
      | callAbort =>
          rw [runBody, ih _ (by simp)]
          cases c
          simp_all [workTags]
      | callNext =>
          rw [runBody, Next_stopped f c hstop, ih c hstop]
          simp [workTags]
      | work t =>
          rw [runBody, ih _ (by simp [hstop])]
          simp [workTags, List.append_assoc]

/-- No handler body in the chain contains an abort call. -/
def NoAbort (hs : List (List Act)) : Prop := ∀ b ∈ hs, Act.callAbort ∉ b

/-- Structure eta for an un-stopped context. -/
theorem ctx_eta (c : Context) (h : c.stopped = false) :
    c = ⟨c.handlers, c.index, false, c.entered, c.wrote⟩ := by
  rw [← h]

/-- Contract of `Context.Next` at fuel `f`: starting un-stopped with
enough fuel in an abort-free chain, `Next` drives the cursor past the end
of the chain and enters exactly the not-yet-entered handlers, each once,
in ascending order. -/
def NextProp (f : Nat) : Prop :=
  ∀ (hs : List (List Act)) (ix : Int) (en wr : List Nat),
    -1 ≤ ix → NoAbort hs →
    hs.length - (ix + 1).toNat + 1 ≤ f →
    (Context.Next f ⟨hs, ix, false, en, wr⟩).handlers = hs ∧
    (Context.Next f ⟨hs, ix, false, en, wr⟩).stopped = false ∧
    ix + 1 ≤ (Context.Next f ⟨hs, ix, false, en, wr⟩).index ∧
    (hs.length : Int) ≤ (Context.Next f ⟨hs, ix, false, en, wr⟩).index ∧
    (Context.Next f ⟨hs, ix, false, en, wr⟩).entered =
      en ++ List.range' (ix + 1).toNat (hs.length - (ix + 1).toNat)

/-- Contract of `runBody` at fuel `f` for an abort-free body of an
abort-free chain: chain and stop flag untouched; if the body calls `Next`
then all remaining handlers get entered, otherwise cursor and entered log
are unchanged. -/
def BodyProp (f : Nat) : Prop :=
  ∀ (as : List Act) (hs : List (List Act)) (ix : Int) (en wr : List Nat),
    -1 ≤ ix → NoAbort hs → Act.callAbort ∉ as →
    hs.length - (ix + 1).toNat + 1 ≤ f →
    (runBody f as ⟨hs, ix, false, en, wr⟩).handlers = hs ∧
    (runBody f as ⟨hs, ix, false, en, wr⟩).stopped = false ∧
    ix ≤ (runBody f as ⟨hs, ix, false, en, wr⟩).index ∧
    (Act.callNext ∈ as →
      (hs.length : Int) ≤ (runBody f as ⟨hs, ix, false, en, wr⟩).index) ∧
    (Act.callNext ∉ as → (runBody f as ⟨hs, ix, false, en, wr⟩).index = ix) ∧
    (runBody f as ⟨hs, ix, false, en, wr⟩).entered =
      en ++ (if Act.callNext ∈ as then
        List.range' (ix + 1).toNat (hs.length - (ix + 1).toNat)
      else [])

/-- The dispatch contracts hold at every fuel (strong induction on fuel;
the fuel hypotheses make the zero case vacuous). -/
theorem dispatchRun : ∀ f : Nat, NextProp f ∧ BodyProp f := by
  intro f
  induction f using Nat.strong_induction_on with
  | _ f ih =>
      have hL : NextProp f := by
        cases f with
        | zero =>
            intro hs ix en wr hidx hna hfuel
            omega
        | succ f0 =>
            intro hs ix en wr hidx hna hfuel
            obtain ⟨ihL, ihM⟩ := ih f0 (Nat.lt_succ_self f0)
            by_cases hlt : ix + 1 < (hs.length : Int)
            · have hstep : Context.Next (f0 + 1) ⟨hs, ix, false, en, wr⟩ =
                  Context.Next f0 (runBody f0 (hs.getD (ix + 1).toNat [])
                    ⟨hs, ix + 1, false, en ++ [(ix + 1).toNat], wr⟩) := by
                simp [Context.Next, hlt]
              rw [hstep]
              have hilen : (ix + 1).toNat < hs.length := by omega
              have hbmem : hs.getD (ix + 1).toNat [] ∈ hs := by
                rw [List.getD_eq_getElem hs [] hilen]
                exact List.getElem_mem hilen
              obtain ⟨hM1, hM2, hM3, hM4, hM5, hM6⟩ :=
                ihM (hs.getD (ix + 1).toNat []) hs (ix + 1)
                  (en ++ [(ix + 1).toNat]) wr (by omega) hna (hna _ hbmem) (by omega)
              set r := runBody f0 (hs.getD (ix + 1).toNat [])
                ⟨hs, ix + 1, false, en ++ [(ix + 1).toNat], wr⟩ with hr
              rw [ctx_eta r hM2]
              obtain ⟨hLr1, hLr2, hLr3, hLr4, hLr5⟩ :=
                ihL r.handlers r.index r.entered r.wrote (by omega)
                  (by rw [hM1]; exact hna) (by rw [hM1]; omega)
              have hlen : r.handlers.length = hs.length := by rw [hM1]
              refine ⟨by rw [hLr1]; exact hM1, hLr2, by omega, by omega, ?_⟩
              rw [hLr5, hlen, hM6]
              have h2 : (ix + 1 + 1).toNat = (ix + 1).toNat + 1 := by omega
              have hsplit : hs.length - (ix + 1).toNat =
                  (hs.length - ((ix + 1).toNat + 1)) + 1 := by omega
              by_cases hnx : Act.callNext ∈ hs.getD (ix + 1).toNat []
              · have hge := hM4 hnx
                have hz : hs.length - (r.index + 1).toNat = 0 := by omega
                rw [hz]
                simp only [hnx, if_true, h2]
                rw [hsplit, List.range'_succ]
                simp [List.append_assoc]
              · have heq := hM5 hnx
                rw [heq]
                simp only [hnx, if_false, h2]
                rw [hsplit, List.range'_succ]
                simp [List.append_assoc]
            · have hstep : Context.Next (f0 + 1) ⟨hs, ix, false, en, wr⟩ =
                  ⟨hs, ix + 1, false, en, wr⟩ := by
                simp [Context.Next, hlt]
              rw [hstep]
              have hz : hs.length - (ix + 1).toNat = 0 := by omega
              refine ⟨rfl, rfl, le_refl _, by show (hs.length : Int) ≤ ix + 1; omega, ?_⟩
              show en = en ++ List.range' (ix + 1).toNat (hs.length - (ix + 1).toNat)
              rw [hz]
              simp
      have hM : BodyProp f := by
        intro as
        induction as with
        | nil =>
            intro hs ix en wr hidx hna hnab hfuel
            refine ⟨by simp [runBody], by simp [runBody], le_of_eq (by simp [runBody]),
              by simp, fun _ => by simp [runBody], by simp [runBody]⟩
        | cons a rest ihAs =>
            intro hs ix en wr hidx hna hnab hfuel
            cases a with
            | callAbort => simp at hnab
            | callNext =>
                have hstep : runBody f (Act.callNext :: rest) ⟨hs, ix, false, en, wr⟩ =
                    runBody f rest (Context.Next f ⟨hs, ix, false, en, wr⟩) := by
                  simp [runBody]
                rw [hstep]
                obtain ⟨hL1, hL2, hL3, hL4, hL5⟩ := hL hs ix en wr hidx hna hfuel
                set t := Context.Next f ⟨hs, ix, false, en, wr⟩ with ht
                rw [ctx_eta t hL2]
                obtain ⟨h1, h2, h3, h4, h5, h6⟩ :=
                  ihAs t.handlers t.index t.entered t.wrote (by omega)
                    (by rw [hL1]; exact hna)
                    (fun hm => hnab (List.mem_cons_of_mem _ hm))
                    (by rw [hL1]; omega)
                have hlen2 : t.handlers.length = hs.length := by rw [hL1]
                refine ⟨by rw [h1]; exact hL1, h2, by omega, fun _ => ?_,
                  fun hno => absurd (List.mem_cons_self _ _) hno, ?_⟩
                · by_cases hmem : Act.callNext ∈ rest
                  · have := h4 hmem
                    omega
                  · have := h5 hmem
                    omega
                · rw [h6, hlen2]
                  have hz : hs.length - (t.index + 1).toNat = 0 := by omega
                  rw [hz, hL5]
                  by_cases hmem : Act.callNext ∈ rest <;>
                    simp [hmem, List.append_assoc]
            | work tg =>
                have hstep : runBody f (Act.work tg :: rest) ⟨hs, ix, false, en, wr⟩ =
                    runBody f rest ⟨hs, ix, false, en, wr ++ [tg]⟩ := by
                  simp [runBody]
                rw [hstep]
                obtain ⟨h1, h2, h3, h4, h5, h6⟩ :=
                  ihAs hs ix en (wr ++ [tg]) hidx hna
                    (fun hm => hnab (List.mem_cons_of_mem _ hm)) hfuel
                refine ⟨h1, h2, h3, fun hm => h4 (by simpa using hm),
                  fun hno => h5 (fun hm => hno (List.mem_cons_of_mem _ hm)), ?_⟩
                rw [h6]
                by_cases hmem : Act.callNext ∈ rest <;> simp [hmem]
      exact ⟨hL, hM⟩

/-! ## Group path joining (route.go, `joinPath` / `lastChar`)

`joinPath` uses Go `path.Join`, which joins the non-empty arguments with
`/` and runs the lexical `path.Clean` algorithm over the result. `Clean`
is modelled here from its documented semantics: split into segments,
process `.` and `..`, re-join with single slashes, keep rootedness, and
return `.` for an empty unrooted result. -/

/-- The `.`/`..` processing of Go `path.Clean` over the non-empty
segments, with an output stack (`acc`, reversed). -/
def cleanSegs (rooted : Bool) : List (List Char) → List (List Char) → List (List Char)
  | acc, [] => acc.reverse
  | acc, s :: rest =>
      if s = ['.'] then cleanSegs rooted acc rest
      else if s = ['.', '.'] then
        match acc with
        | [] => if rooted then cleanSegs rooted [] rest else cleanSegs rooted [s] rest
        | t :: acc2 =>
            if t = ['.', '.'] then cleanSegs rooted (s :: t :: acc2) rest
            else cleanSegs rooted acc2 rest
      else cleanSegs rooted (s :: acc) rest

/-- Join segments with single `/` separators. -/
def joinSegs : List (List Char) → List Char
  | [] => []
  | [s] => s
  | s :: rest => s ++ '/' :: joinSegs rest

/-- Model of Go `path.Clean` (documented lexical algorithm). -/
def clean (p : List Char) : List Char :=
  let rooted := p.head? = some '/'
  let out := joinSegs (cleanSegs rooted [] (splitClean p))
  if rooted then '/' :: out
  else if out = [] then ['.'] else out

/-- Model of Go `path.Join` for two elements: empty elements are skipped,
the rest are joined with `/` and cleaned; all-empty input gives `""`. -/
def pathJoin (a b : List Char) : List Char :=
  if a = [] then (if b = [] then [] else clean b)
  else clean (a ++ '/' :: b)

/-- `lastChar` from route.go returns the last byte (the Go code panics on
the empty string; the model returns `none` there, and `joinPath` below
never hits that case). -/
def lastChar (s : List Char) : Option Char := s.getLast?

/-- `joinPath` from route.go: empty relative path returns the absolute
path unchanged; otherwise `path.Join`, re-appending a trailing slash when
the relative path ends in one and the joined result does not. -/
def joinPath (absolutePath relativePath : List Char) : List Char :=
  if relativePath = [] then absolutePath
  else
    let finalPath := pathJoin absolutePath relativePath
    if lastChar relativePath = some '/' ∧ lastChar finalPath ≠ some '/' then
      finalPath ++ ['/']
    else finalPath

/-- A path whose segments contain no `.` or `..` entries. -/
def noDots (p : List Char) : Prop :=
  ∀ s ∈ splitClean p, s ≠ ['.'] ∧ s ≠ ['.', '.']

/-- Without `.`/`..` segments the clean stack just accumulates. -/
theorem cleanSegs_noDots (rooted : Bool) :
    ∀ (l acc : List (List Char)),
      (∀ s ∈ l, s ≠ ['.'] ∧ s ≠ ['.', '.']) →
      cleanSegs rooted acc l = acc.reverse ++ l := by
  intro l
  induction l with
  | nil => intro acc _; simp [cleanSegs]
  | cons s rest ih =>
      intro acc hnd
      have hs := hnd s (List.mem_cons_self s rest)
      simp only [cleanSegs]
      rw [if_neg hs.1, if_neg hs.2]
      rw [ih (s :: acc) fun x hx => hnd x (List.mem_cons_of_mem s hx)]
      simp

/-- A non-empty slash-free string is a single segment. -/
theorem splitGo_single (s : List Char) (hsl : '/' ∉ s) : splitGo s = [s] := by
  induction s with
  | nil => rfl
  | cons c cs ih =>
      have hc : c ≠ '/' := fun he => hsl (he ▸ List.mem_cons_self c cs)
      have hcs : '/' ∉ cs := fun hm => hsl (List.mem_cons_of_mem c hm)
      rw [splitGo, if_neg hc, ih hcs]

theorem splitClean_single (s : List Char) (hne : s ≠ []) (hsl : '/' ∉ s) :
    splitClean s = [s] := by
  rw [splitClean_eq_filter, splitGo_single s hsl]
  simp [hne]

/-- Re-joining good segments with `/` splits back to the same segments. -/
theorem splitClean_joinSegs :
    ∀ segs : List (List Char),
      (∀ s ∈ segs, s ≠ [] ∧ '/' ∉ s) →
      splitClean (joinSegs segs) = segs := by
  intro segs
  induction segs with
  | nil => intro _; rfl
  | cons s rest ih =>
      intro hok
      have hs := hok s (List.mem_cons_self s rest)
      cases rest with
      | nil => exact splitClean_single s hs.1 hs.2
      | cons s2 r2 =>
          rw [show joinSegs (s :: s2 :: r2) = s ++ '/' :: joinSegs (s2 :: r2) from rfl]
          rw [splitClean_append, splitClean_single s hs.1 hs.2,
            ih fun x hx => hok x (List.mem_cons_of_mem s hx)]
          rfl

/-- A path starting with a non-slash character has at least one segment. -/
theorem splitClean_cons_ne (c : Char) (cs : List Char) (hc : c ≠ '/') :
    splitClean (c :: cs) ≠ [] := by
  rw [splitClean_eq_filter]
  rw [splitGo]
  rw [if_neg hc]
  rcases hs : splitGo cs with _ | ⟨g, gs⟩
  · exact absurd hs (splitGo_ne_nil cs)
  · simp

/-- Joining non-empty segments gives a non-empty string. -/
theorem joinSegs_ne_nil : ∀ segs : List (List Char), segs ≠ [] →
    (∀ s ∈ segs, s ≠ []) → joinSegs segs ≠ [] := by
  intro segs hne hok
  cases segs with
  | nil => exact absurd rfl hne
  | cons s rest =>
      cases rest with
      | nil => simpa [joinSegs] using hok s (List.mem_cons_self _ _)
      | cons s2 r2 =>
          rw [show joinSegs (s :: s2 :: r2) = s ++ '/' :: joinSegs (s2 :: r2) from rfl]
          simp

/-- `path.Clean` does not change the segments of a dot-free path (for a
path that is rooted or has at least one segment). -/
theorem splitClean_clean (p : List Char) (hnd : noDots p)
    (hok : p.head? = some '/' ∨ splitClean p ≠ []) :
    splitClean (clean p) = splitClean p := by
  have hsegs : ∀ s ∈ splitClean p, s ≠ [] ∧ '/' ∉ s := splitClean_seg_ok p
  have hjoin : splitClean (joinSegs (splitClean p)) = splitClean p :=
    splitClean_joinSegs (splitClean p) hsegs
  have hcs : cleanSegs (decide (p.head? = some '/')) [] (splitClean p) = splitClean p := by
    rw [cleanSegs_noDots _ _ _ hnd]
    simp
  by_cases hr : p.head? = some '/'
  · simp only [clean]
    rw [if_pos hr, hcs, splitClean_cons_slash, hjoin]
  · have hne : splitClean p ≠ [] := hok.resolve_left hr
    have hout : joinSegs (splitClean p) ≠ [] :=
      joinSegs_ne_nil (splitClean p) hne fun x hx => (hsegs x hx).1
    simp only [clean]
    rw [if_neg hr, hcs, if_neg hout, hjoin]

/-- When the relative path ends in `/`, so does the joined path. -/
theorem joinPath_trailing (a b : List Char) (hb : lastChar b = some '/') :
    lastChar (joinPath a b) = some '/' := by
  have hbne : b ≠ [] := by
    intro h
    rw [h] at hb
    simp [lastChar] at hb
  unfold joinPath
  rw [if_neg hbne]
  by_cases hc : lastChar (pathJoin a b) = some '/'
  · rw [if_neg fun h => h.2 hc]
    exact hc
  · rw [if_pos ⟨hb, hc⟩]
    simp [lastChar]

/-- Joining dot-free paths concatenates their segments: redundant
separators between the parent and child collapse away. -/
theorem joinPath_segs (a b : List Char) (hb : b ≠ []) (hna : noDots a)
    (hnb : noDots b) :
    splitClean (joinPath a b) = splitClean a ++ splitClean b := by
  have hpj : splitClean (pathJoin a b) = splitClean a ++ splitClean b := by
    unfold pathJoin
    by_cases ha : a = []
    · rw [if_pos ha, if_neg hb]
      subst ha
      have hok : b.head? = some '/' ∨ splitClean b ≠ [] := by
        cases b with
        | nil => exact absurd rfl hb
        | cons c cs =>
            by_cases hcc : c = '/'
            · left
              simp [hcc]
            · right
              exact splitClean_cons_ne c cs hcc
      rw [splitClean_clean b hnb hok]
      rfl
    · rw [if_neg ha]
      have hnd : noDots (a ++ '/' :: b) := by
        intro s hsm
        rw [splitClean_append] at hsm
        rcases List.mem_append.mp hsm with h | h
        · exact hna s h
        · exact hnb s h
      have hok : (a ++ '/' :: b).head? = some '/' ∨ splitClean (a ++ '/' :: b) ≠ [] := by
        cases a with
        | nil => exact absurd rfl ha
        | cons c cs =>
            by_cases hcc : c = '/'
            · left
              simp [hcc]
            · right
              rw [show (c :: cs) ++ '/' :: b = c :: (cs ++ '/' :: b) from rfl]
              exact splitClean_cons_ne c _ hcc
      rw [splitClean_clean _ hnd hok, splitClean_append]
  unfold joinPath
  rw [if_neg hb]
  by_cases hcond : lastChar b = some '/' ∧ lastChar (pathJoin a b) ≠ some '/'
  · rw [if_pos hcond, splitClean_append_slash, hpj]
  · rw [if_neg hcond, hpj]

/-! ## Concrete fixtures used by witnesses and counterexamples -/

def mGET : String := "GET"
def mPOST : String := "POST"
def mPUT : String := "PUT"
def pingPath : List Char := "/ping".toList
def msgRoutePath : List Char := "/message/:a/:b".toList
def msgReqPath : List Char := "/message/x/y".toList
def segA : List Char := "a".toList
def segB : List Char := "b".toList
def segX : List Char := "x".toList
def segY : List Char := "y".toList
def userLitPath : List Char := "/user/profile".toList
def userParamPath : List Char := "/user/:id".toList
def profileSeg : List Char := "profile".toList
def idName : List Char := "id".toList
def xName : List Char := "x".toList
def vSeg : List Char := "v".toList
def abPath : List Char := "/a/b".toList
def abMessy : List Char := "a//b/".toList
def aDoubleB : List Char := "/a//b/".toList
def aSingleB : List Char := "/a/b/".toList
def usersListPath : List Char := "/users/list".toList
def usersPath : List Char := "/users".toList
def unregPath : List Char := "/unregistered".toList
def xPath : List Char := "/x".toList
def apiSlash : List Char := "/api/".toList
def apiNoSlash : List Char := "/api".toList
def qSlash : List Char := "//q/".toList

def exRoutes : List (String × List Char × List Nat) :=
  [(mGET, pingPath, [0]), (mGET, msgRoutePath, [1, 2])]

def exEngine : Engine Nat :=
  (regAll (emptyEngine Nat) exRoutes).toOption.getD (emptyEngine Nat)

def userRoutes : List (String × List Char × List Nat) :=
  [(mGET, userLitPath, [0]), (mGET, userParamPath, [1])]

def engUserBoth : Engine Nat :=
  (regAll (emptyEngine Nat) userRoutes).toOption.getD (emptyEngine Nat)

def engUserParam : Engine Nat :=
  ((emptyEngine Nat).addRoute mGET userParamPath [0]).toOption.getD (emptyEngine Nat)

def msgEngine : Engine Nat :=
  ((emptyEngine Nat).addRoute mGET msgRoutePath [7]).toOption.getD (emptyEngine Nat)

def dupEngine : Engine Nat :=
  ((emptyEngine Nat).addRoute mGET abPath [0]).toOption.getD (emptyEngine Nat)

def prefixEngine : Engine Nat :=
  ((emptyEngine Nat).addRoute mGET usersListPath [0]).toOption.getD (emptyEngine Nat)

def paramReuseRoutes : List (String × List Char × List Nat) :=
  [(mGET, "/a/:x/one".toList, [0]), (mGET, "/a/:y/two".toList, [1])]

def paramReuseEngine : Engine Nat :=
  (regAll (emptyEngine Nat) paramReuseRoutes).toOption.getD (emptyEngine Nat)

def ndParam : Node Nat := Node.mk [] false none [] (some (Node.fresh xName true))

/-! ## The claims -/

/-- C1: for every engine built by a sequence of registrations that all
succeed, every registered `(method, path)` pair resolves (via `findRoute`)
to exactly the handler chain registered for it, and the parameter-binding
map is `none` whenever the registered path contains no parameter
segments. -/
theorem C1_registered_routes_resolve {H : Type}
    (rs : List (String × List Char × List H)) (e : Engine H)
    (m : String) (p : List Char) (ch : List H)
    (hreg : regAll (emptyEngine H) rs = .ok e) (hmem : (m, p, ch) ∈ rs) :
    (e.findRoute m p).1 = some ch ∧
      (hasParamSeg p = false → (e.findRoute m p).2 = none) :=
  regAll_findRoute rs (emptyEngine H) e m p ch hreg hmem

theorem C1_registered_routes_resolve_witness :
    regAll (emptyEngine Nat) exRoutes = .ok exEngine ∧
    (mGET, pingPath, ([0] : List Nat)) ∈ exRoutes ∧
    ((exEngine.findRoute mGET pingPath).1 = some [0] ∧
      (hasParamSeg pingPath = false → (exEngine.findRoute mGET pingPath).2 = none)) :=
  ⟨rfl, by decide,
    C1_registered_routes_resolve exRoutes exEngine mGET pingPath [0] rfl (by decide)⟩

/-- C2 counterexample: the claim says registering the literal route
`/user/profile` and then the parameter route `/user/:id` must fail with a
conflict error; in the code this whole sequence SUCCEEDS, because the
parameter-side conflict check only looks up the literal token `":id"`
among the static children, and no static child key ever starts with
`:`. -/
theorem C2_conflict_counterexample :
    regAll (emptyEngine Nat) userRoutes = .ok engUserBoth := rfl

/-- C2 (amended): conflict detection fires in one direction only.
Registering a literal segment at a tree position that already has a
parameter child fails with a conflict error (so `/user/:id` then
`/user/profile` fails); in the opposite direction the check only fires
when a static child keyed by the exact parameter token (colon included)
exists — which never happens — so `/user/profile` then `/user/:id`
succeeds. -/
theorem C2_conflict_amended :
    (∀ (H : Type) (chain : List H) (part : List Char) (rest : List (List Char))
        (nd : Node H), part.head? ≠ some ':' → nd.paramNode.isSome = true →
        insertRoute chain (part :: rest) nd = .error (.staticConflict part)) ∧
    (emptyEngine Nat).addRoute mGET userParamPath [0] = .ok engUserParam ∧
    engUserParam.addRoute mGET userLitPath [1] =
      .error (.staticConflict profileSeg) ∧
    regAll (emptyEngine Nat) userRoutes = .ok engUserBoth := by
  refine ⟨?_, rfl, rfl, rfl⟩
  intro H chain part rest nd hpar hpn
  cases nd with
  | mk seg pb hs ch pn =>
      have hpn2 : pn.isSome = true := hpn
      simp [insertRoute, hpar, hpn2]

theorem C2_conflict_amended_witness :
    (profileSeg.head? ≠ some ':') ∧
    (ndParam.paramNode.isSome = true) ∧
    insertRoute ([5] : List Nat) [profileSeg] ndParam =
      .error (.staticConflict profileSeg) :=
  ⟨by decide, rfl,
    C2_conflict_amended.1 Nat [5] profileSeg [] ndParam (by decide) rfl⟩

/-- C3: in a chain of three handlers whose first handler calls `Abort()`,
dispatch never enters the second or third handler, whatever their bodies;
the first handler still completes the rest of its own body (all its
`work` statements run), and the response state (`wrote`) holds exactly
what the first handler wrote. -/
theorem C3_abort_skips_rest (rest h2 h3 : List Act) (f : Nat) (hf : 1 ≤ f) :
    (Context.Next f (mkContext [Act.callAbort :: rest, h2, h3])).entered = [0] ∧
    (Context.Next f (mkContext [Act.callAbort :: rest, h2, h3])).wrote =
      workTags rest := by
  obtain ⟨f0, rfl⟩ : ∃ f0, f = f0 + 1 := ⟨f - 1, by omega⟩
  have h1 : Context.Next (f0 + 1) (mkContext [Act.callAbort :: rest, h2, h3]) =
      Context.Next f0 (runBody f0 (Act.callAbort :: rest)
        ⟨[Act.callAbort :: rest, h2, h3], 0, false, [0], []⟩) := by
    simp [Context.Next, mkContext]
  have h2r : runBody f0 (Act.callAbort :: rest)
      ⟨[Act.callAbort :: rest, h2, h3], 0, false, [0], []⟩ =
      ⟨[Act.callAbort :: rest, h2, h3], 0, true, [0], workTags rest⟩ := by
    rw [runBody, runBody_stopped f0 rest _ rfl]
    rfl
  rw [h1, h2r, Next_stopped f0 _ rfl]
  exact ⟨rfl, rfl⟩

theorem C3_abort_skips_rest_witness :
    1 ≤ 2 ∧
    ((Context.Next 2 (mkContext [Act.callAbort :: [Act.work 7],
        [Act.work 1], [Act.work 2]])).entered = [0] ∧
      (Context.Next 2 (mkContext [Act.callAbort :: [Act.work 7],
        [Act.work 1], [Act.work 2]])).wrote = workTags [Act.work 7]) :=
  ⟨by decide, C3_abort_skips_rest [Act.work 7] [Act.work 1] [Act.work 2] 2 (by decide)⟩

/-- C4: for a chain built by `joinHandler` (inherited middleware first,
then the route handlers) in which no handler calls `Abort()`, a single
starting `Next()` call enters every handler exactly once, in chain order
`0, 1, ..., n-1` — even when handlers themselves call `Next()` inside
their bodies (the entered log is exactly `range n`, which also gives
at-most-one entry per handler). -/
theorem C4_all_handlers_once (mws own : List (List Act)) (f : Nat)
    (hna : NoAbort (joinHandler mws own))
    (hf : nextFuel (joinHandler mws own) ≤ f) :
    (Context.Next f (mkContext (joinHandler mws own))).entered =
      List.range (mws.length + own.length) ∧
    (Context.Next f (mkContext (joinHandler mws own))).entered.Nodup := by
  have h := (dispatchRun f).1 (joinHandler mws own) (-1) [] [] (by omega) hna
    (by simp [nextFuel] at hf ⊢; omega)
  have hmk : mkContext (joinHandler mws own) =
      (⟨joinHandler mws own, -1, false, [], []⟩ : Context) := rfl
  rw [hmk]
  have hen := h.2.2.2.2
  have hln : (joinHandler mws own).length = mws.length + own.length := by
    simp [joinHandler]
  rw [hen]
  have hz : ((-1 : Int) + 1).toNat = 0 := by omega
  rw [hz, hln]
  constructor
  · rw [← List.range_eq_range']
    simp
  · rw [← List.range_eq_range']
    simp [List.nodup_range]

theorem C4_all_handlers_once_witness :
    NoAbort (joinHandler [[Act.callNext], [Act.work 4]] [[Act.work 5]]) ∧
    nextFuel (joinHandler [[Act.callNext], [Act.work 4]] [[Act.work 5]]) ≤ 9 ∧
    ((Context.Next 9 (mkContext
        (joinHandler [[Act.callNext], [Act.work 4]] [[Act.work 5]]))).entered =
      List.range (2 + 1) ∧
    (Context.Next 9 (mkContext
        (joinHandler [[Act.callNext], [Act.work 4]] [[Act.work 5]]))).entered.Nodup) :=
  ⟨by intro b hb; fin_cases hb <;> decide, by decide,
    C4_all_handlers_once [[Act.callNext], [Act.work 4]] [[Act.work 5]] 9
      (by intro b hb; fin_cases hb <;> decide) (by decide)⟩

/-- C5: registering `/message/:a/:b` on a fresh engine succeeds, and
resolving the request path `/message/x/y` returns that route chain with
the bindings `a -> "x"` and `b -> "y"`, each parameter name bound to the
literal text of the corresponding request segment. -/
theorem C5_two_param_binding :
    (emptyEngine Nat).addRoute mGET msgRoutePath [7] = .ok msgEngine ∧
    msgEngine.findRoute mGET msgReqPath =
      (some [7], some [(segA, segX), (segB, segY)]) ∧
    mlook [(segA, segX), (segB, segY)] segA = some segX ∧
    mlook [(segA, segX), (segB, segY)] segB = some segY :=
  ⟨rfl, rfl, rfl, rfl⟩

/-- C6: right after a successful registration of `(method, path)`, a
second registration of the same method with any path that cleans to the
same segment sequence (in particular the same path) fails with the
duplicate-route error, raised because the final node already carries a
handler chain. -/
theorem C6_duplicate_rejected {H : Type} (e e1 : Engine H) (m : String)
    (p p2 : List Char) (ch ch2 : List H)
    (hsame : splitClean p2 = splitClean p)
    (h : e.addRoute m p ch = .ok e1) :
    e1.addRoute m p2 ch2 = .error .duplicateRoute := by
  unfold Engine.addRoute at h ⊢
  rcases hr : insertRoute ch (splitClean p)
      ((mlook e.trees m).getD (Node.fresh [] false)) with err | root1
  · rw [hr] at h
    simp at h
  · rw [hr] at h
    simp only [Except.ok.injEq] at h
    have htrees : e1.trees = mins e.trees m root1 := by rw [← h]
    rw [hsame, htrees, mlook_mins_self]
    simp only [Option.getD_some]
    rw [insertRoute_twice ch ch2 (splitClean p) _ root1 hr]

theorem C6_duplicate_rejected_witness :
    splitClean abMessy = splitClean abPath ∧
    (emptyEngine Nat).addRoute mGET abPath [0] = .ok dupEngine ∧
    dupEngine.addRoute mGET abMessy [1] = .error .duplicateRoute :=
  ⟨rfl, rfl,
    C6_duplicate_rejected (emptyEngine Nat) dupEngine mGET abPath abMessy
      [0] [1] rfl rfl⟩

/-- C7: resolution reports "no matching route" as an ordinary return
value `(none, none)` — never an error (the model of `findRoute` is a
total function, mirroring the Go source, which contains no panic):
a method with no tree at all resolves to `(none, none)` for every path,
and on an engine with only `GET /users/list`, a proper-prefix path, an
unregistered path, and a wrong method all resolve to `(none, none)`. -/
theorem C7_not_found_is_value :
    (∀ (H : Type) (e : Engine H) (m : String) (p : List Char),
        mlook e.trees m = none → e.findRoute m p = (none, none)) ∧
    prefixEngine.findRoute mGET usersPath = (none, none) ∧
    prefixEngine.findRoute mGET unregPath = (none, none) ∧
    prefixEngine.findRoute mPOST usersListPath = (none, none) := by
  refine ⟨?_, rfl, rfl, rfl⟩
  intro H e m p h
  unfold Engine.findRoute
  rw [h]

theorem C7_not_found_is_value_witness :
    mlook prefixEngine.trees mPUT = none ∧
    prefixEngine.findRoute mPUT xPath = (none, none) :=
  ⟨rfl, C7_not_found_is_value.1 Nat prefixEngine mPUT xPath rfl⟩

/-- C8: `splitClean` is a normalization — leading and trailing slashes
are ignored, consecutive slashes collapse, and an empty or all-slash path
yields no segments; consequently any two paths with the same cleaned
segments resolve identically (registration builds the tree from the same
split, so equal-segment paths also produce identical trees). -/
theorem C8_split_normalizes :
    (∀ p : List Char, splitClean ('/' :: p) = splitClean p) ∧
    (∀ p : List Char, splitClean (p ++ ['/']) = splitClean p) ∧
    (∀ a b : List Char,
        splitClean (a ++ '/' :: '/' :: b) = splitClean (a ++ '/' :: b)) ∧
    splitClean [] = [] ∧
    (∀ n : Nat, splitClean (List.replicate n '/') = []) ∧
    (∀ (H : Type) (e : Engine H) (m : String) (p q : List Char),
        splitClean p = splitClean q → e.findRoute m p = e.findRoute m q) ∧
    (∀ (H : Type) (e : Engine H) (m : String) (p q : List Char) (ch : List H),
        splitClean p = splitClean q →
        (e.addRoute m p ch).map Engine.trees = (e.addRoute m q ch).map Engine.trees) ∧
    (∀ (H : Type) (e : Engine H) (m : String),
        e.findRoute m aDoubleB = e.findRoute m aSingleB) := by
  have hres : ∀ (H : Type) (e : Engine H) (m : String) (p q : List Char),
      splitClean p = splitClean q → e.findRoute m p = e.findRoute m q := by
    intro H e m p q h
    unfold Engine.findRoute
    rw [h]
  refine ⟨splitClean_cons_slash, splitClean_append_slash, splitClean_double_slash,
    rfl, splitClean_replicate_slash, hres, ?_, ?_⟩
  · intro H e m p q ch h
    unfold Engine.addRoute
    rw [h]
    rcases hr : insertRoute ch (splitClean q)
        ((mlook e.trees m).getD (Node.fresh [] false)) with err | root1 <;>
      simp [hr, Except.map]
  · intro H e m
    exact hres H e m aDoubleB aSingleB rfl

theorem C8_split_normalizes_witness :
    splitClean aDoubleB = splitClean aSingleB ∧
    exEngine.findRoute mGET aDoubleB = exEngine.findRoute mGET aSingleB :=
  ⟨rfl, C8_split_normalizes.2.2.2.2.2.1 Nat exEngine mGET aDoubleB aSingleB rfl⟩

/-- C9: `joinPath` with an empty child returns the parent unchanged
(`/api/` keeps its trailing slash, `/api` stays without one); a non-empty
child ending in `/` makes the result end in `/`; and for dot-free paths
the joined path's segments are exactly the parent's segments followed by
the child's — redundant separators between them collapse. -/
theorem C9_joinPath_contract :
    (∀ a : List Char, joinPath a [] = a) ∧
    joinPath apiSlash [] = apiSlash ∧
    joinPath apiNoSlash [] = apiNoSlash ∧
    (∀ a b : List Char, lastChar b = some '/' →
        lastChar (joinPath a b) = some '/') ∧
    (∀ a b : List Char, b ≠ [] → noDots a → noDots b →
        splitClean (joinPath a b) = splitClean a ++ splitClean b) := by
  refine ⟨?_, rfl, rfl, joinPath_trailing, joinPath_segs⟩
  intro a
  simp [joinPath]

theorem C9_joinPath_contract_witness :
    lastChar qSlash = some '/' ∧
    qSlash ≠ [] ∧ noDots apiSlash ∧ noDots qSlash ∧
    lastChar (joinPath apiSlash qSlash) = some '/' ∧
    splitClean (joinPath apiSlash qSlash) =
      splitClean apiSlash ++ splitClean qSlash :=
  ⟨rfl, by decide, by unfold noDots; decide, by unfold noDots; decide,
    C9_joinPath_contract.2.2.2.1 apiSlash qSlash rfl,
    C9_joinPath_contract.2.2.2.2 apiSlash qSlash (by decide)
      (by unfold noDots; decide) (by unfold noDots; decide)⟩

/-- C10: a parameter child, once created, keeps its stored parameter
name through every later successful insertion; concretely, registering
`/a/:x/one` and then `/a/:y/two` succeeds (the second silently reuses the
`:x` node), and both `/a/v/one` and `/a/v/two` bind the matched segment
under the first-registered name `x` only. -/
theorem C10_param_name_immutable :
    (∀ (H : Type) (chain : List H) (parts : List (List Char))
        (nd nd' pn : Node H),
        insertRoute chain parts nd = .ok nd' → nd.paramNode = some pn →
        nd'.paramNode.map Node.segment = some pn.segment) ∧
    regAll (emptyEngine Nat) paramReuseRoutes = .ok paramReuseEngine ∧
    paramReuseEngine.findRoute mGET ("/a/v/two".toList) =
      (some [1], some [(xName, vSeg)]) ∧
    paramReuseEngine.findRoute mGET ("/a/v/one".toList) =
      (some [0], some [(xName, vSeg)]) := by
  refine ⟨?_, rfl, rfl, rfl⟩
  intro H chain parts nd nd' pn h hpn
  obtain ⟨pn', h1, h2⟩ := insertRoute_paramNode_name chain parts nd nd' pn h hpn
  rw [h1]
  simp [h2]

theorem C10_param_name_immutable_witness :
    insertRoute ([3] : List Nat) [(":y".toList)] ndParam =
      .ok (Node.mk [] false none []
        (some (Node.mk xName true (some [3]) [] none))) ∧
    ndParam.paramNode = some (Node.fresh xName true) ∧
    (Node.mk ([] : List Char) false (none : Option (List Nat)) []
        (some (Node.mk xName true (some [3]) [] none))).paramNode.map Node.segment =
      some (Node.fresh xName true : Node Nat).segment :=
  ⟨rfl, rfl,
    C10_param_name_immutable.1 Nat [3] [(":y".toList)] ndParam
      (Node.mk [] false none [] (some (Node.mk xName true (some [3]) [] none)))
      (Node.fresh xName true) rfl rfl⟩

end Glaze
